import Mathlib

/-!
Shallow embedding of the modelld Field/Model reconciliation engine.

The definitions below translate the library's current class-based source
(`Field` from field.js and `Model` from model.js) into Lean:

* RDF terms and quads are structures over `String` URIs; a quad's graph is
  optional, as rdflib statements may lack a `why` component.
* The field constructor, `set`, `toggleListed`, `getCurrentSource`, `toQuad`,
  `originalQuad` and `fromCurrentState` follow the JS code line by line.
  `uuid.v4()` identifiers are modelled by an explicit `Nat` argument supplied
  by the caller (uuids are fresh and collision-free).
* JS option bags distinguish an absent key from an explicit `null`; the
  `JSOpt` type mirrors that three-way distinction for `set`.
* Partial JS operations (those that would throw a `TypeError`, such as
  `diff` reading `.graph.value` of a graph-less original quad, the
  no-initial-value array reduce over an empty field map, or `add` spreading
  a missing key) are modelled with `Option`, `none` marking the crash.
* `save` is modelled synchronously: the patch transport is a function
  `String → Bool` giving the per-resource outcome, which is faithful because
  the JS code joins all patch promises and only uses the set of succeeded
  URIs.  The thrown save error carries exactly what the code attaches to it:
  the updated model.
-/

namespace Modelld

/-- Source configuration: the default listed/unlisted graph URIs and the
index classifying known graph URIs as listed (`true`) or unlisted
(`false`). -/
structure SourceConfig where
  listedDefault : String
  unlistedDefault : String
  sourceIndex : List (String × Bool)
deriving DecidableEq, Repr

/-- Lookup in an association list keyed by strings (JS object property
access: `obj[key]` is `undefined`, i.e. `none`, for a missing key). -/
def lookupKey {α : Type} : List (String × α) → String → Option α
  | [], _ => none
  | (k, v) :: rest, key => if k = key then some v else lookupKey rest key

/-- An RDF object term: a named node or a literal with an optional
datatype URI. -/
inductive Term where
  | namedNode (value : String)
  | literal (value : String) (datatype : Option String)
deriving DecidableEq, Repr

/-- The value of a term (rdflib exposes `.value` on both node kinds; for a
named node it coincides with `.uri`). -/
def Term.value : Term → String
  | .namedNode v => v
  | .literal v _ => v

/-- Clone a term and overwrite its value (and its `uri` when it is a named
node), as `toQuad` does with `lodash/clone`. -/
def Term.withValue : Term → String → Term
  | .namedNode _, v => .namedNode v
  | .literal _ dt, v => .literal v dt

/-- N-Triples-style serialization of a term, following rdflib `toNT`. -/
def Term.toNT : Term → String
  | .namedNode v => "<" ++ v ++ ">"
  | .literal v none => "\"" ++ v ++ "\""
  | .literal v (some dt) => "\"" ++ v ++ "\"^^<" ++ dt ++ ">"

/-- An RDF quad.  Subject, predicate and graph are named nodes, kept as
their URI strings; the graph is optional because an rdflib statement can
lack a `why` term. -/
structure Quad where
  subject : String
  predicate : String
  object : Term
  graph : Option String
deriving DecidableEq, Repr

/-- Serialization of a quad, following rdflib `Statement.toString` (the
N-Triples form; the graph component is not written). -/
def Quad.toNT (q : Quad) : String :=
  "<" ++ q.subject ++ "> <" ++ q.predicate ++ "> " ++ q.object.toNT ++ " ."

/-- A field: one predicate/value pair for an implicit subject, together
with its visibility flag, the original object/source it was parsed from
(if any), its uuid and the shared source configuration. -/
structure Field where
  predicate : String
  value : String
  listed : Bool
  originalObject : Option Term
  originalSource : Option String
  sourceConfig : SourceConfig
  id : Nat
deriving DecidableEq, Repr

/-- The body of the `Field` constructor after its argument guard: `value`
defaults to the original object's value, `listed` defaults to the source
index entry for the original source and then to `false`, and explicit
`value`/`listed` arguments override both defaults. -/
def mkField (sourceConfig : SourceConfig) (predicate : String)
    (value : Option String) (listed : Option Bool)
    (originalObject : Option Term) (originalSource : Option String)
    (id : Nat) : Field :=
  let valueDefault : Option String := originalObject.map Term.value
  let listedDefault : Option Bool :=
    originalSource.bind (fun s => lookupKey sourceConfig.sourceIndex s)
  { predicate := predicate
    value := (value.or valueDefault).getD ""
    listed := (listed.or listedDefault).getD false
    originalObject := originalObject
    originalSource := originalSource
    sourceConfig := sourceConfig
    id := id }

/-- The `Field` constructor, including its argument guard: it throws
(`none`) unless a value or an original object is given. -/
def createField (sourceConfig : SourceConfig) (predicate : String)
    (value : Option String) (listed : Option Bool)
    (originalObject : Option Term) (originalSource : Option String)
    (id : Nat) : Option Field :=
  if value.isSome || originalObject.isSome then
    some (mkField sourceConfig predicate value listed originalObject originalSource id)
  else
    none

/-- An ad hoc field as built by the field factory from a value and an
options bag (`fieldCreator(value, options)`). -/
def adHocField (sourceConfig : SourceConfig) (predicate : String)
    (value : String) (listed : Option Bool) (id : Nat) : Field :=
  mkField sourceConfig predicate (some value) listed none none id

/-- A field as built by `fieldCreator.fromQuad`: the quad's object and
graph become the original object and source. -/
def fieldFromQuad (sourceConfig : SourceConfig) (q : Quad) (id : Nat) : Field :=
  mkField sourceConfig q.predicate none none (some q.object) q.graph id

namespace Field

/-- The classification used by `getCurrentSource`: unfamiliar URIs (those
not in the source index) count as unlisted (`sourceIndex[uri] || false`). -/
def uriIsListed (f : Field) (uri : String) : Bool :=
  (lookupKey f.sourceConfig.sourceIndex uri).getD false

/-- The current source of a field: its original source when the field's
listed flag matches that source's classification (stay put), otherwise the
default graph for the current listed flag. -/
def getCurrentSource (f : Field) : String :=
  match f.originalSource with
  | some s =>
      if f.listed = f.uriIsListed s then s
      else if f.listed then f.sourceConfig.listedDefault
      else f.sourceConfig.unlistedDefault
  | none =>
      if f.listed then f.sourceConfig.listedDefault
      else f.sourceConfig.unlistedDefault

/-- The current state of a field as a quad.  A tracked original object is
cloned with its value (and uri) overwritten; an ad hoc value becomes a
named node when it is a URI (`valid-url`'s `isUri`, an external
collaborator, is a parameter) and a plain literal otherwise. -/
def toQuad (isUri : String → Bool) (subject : String) (f : Field) : Quad :=
  let object : Term :=
    match f.originalObject with
    | some t => t.withValue f.value
    | none => if isUri f.value then .namedNode f.value else .literal f.value none
  { subject := subject
    predicate := f.predicate
    object := object
    graph := some f.getCurrentSource }

/-- The quad a field was constructed from, or `none` for an ad hoc
field. -/
def originalQuad (subject : String) (f : Field) : Option Quad :=
  f.originalObject.map (fun obj =>
    { subject := subject
      predicate := f.predicate
      object := obj
      graph := f.originalSource })

end Field

/-- A JS option-bag entry: the key may be absent, explicitly `null` (or
`undefined`, which the destructuring default turns into `null`), or a
value. -/
inductive JSOpt (α : Type) where
  | absent
  | null
  | val (a : α)
deriving DecidableEq, Repr

namespace Field

/-- `Field.set`: builds a new field carrying the original object and
source over unchanged; `value`/`listed` fall back to the current ones
whenever the option is `null` — and the destructuring default makes an
absent option `null` as well (`{ value = null, listed = null }` followed
by `value !== null ? value : this.value`). -/
def set (f : Field) (value : JSOpt String) (listed : JSOpt Bool) (id : Nat) : Field :=
  mkField f.sourceConfig f.predicate
    (some (match value with | .val v => v | _ => f.value))
    (some (match listed with | .val b => b | _ => f.listed))
    f.originalObject f.originalSource id

/-- `Field.toggleListed`: `set` with the opposite listed flag. -/
def toggleListed (f : Field) (id : Nat) : Field :=
  f.set .absent (.val (!f.listed)) id

/-- `Field.fromCurrentState`: promotes the current quad to the original
state, forgetting prior history. -/
def fromCurrentState (isUri : String → Bool) (subject : String) (f : Field)
    (id : Nat) : Field :=
  let currentQuad := f.toQuad isUri subject
  mkField f.sourceConfig f.predicate none none
    (some currentQuad.object) currentQuad.graph id

end Field

/-- A model: a subject, an insertion-ordered map from field keys to field
sequences (`Immutable.Map`), and a graveyard of removed fields. -/
structure Model where
  subject : String
  fields : List (String × List Field)
  graveyard : List Field
deriving DecidableEq, Repr

/-- Update an association-list entry in place (`Immutable.Map.set`
preserves the position of an existing key and appends a new one). -/
def setKey {α : Type} : List (String × α) → String → α → List (String × α)
  | [], key, v => [(key, v)]
  | (k, v') :: rest, key, v =>
      if k = key then (key, v) :: rest else (k, v') :: setKey rest key v

/-- Fields matched in a graph for one schema entry, each given a fresh id
starting from `n` (`graph.statementsMatching(subject, predicate)` mapped
through `fieldCreator.fromQuad`). -/
def fieldsFor (sourceConfig : SourceConfig) : Nat → List Quad → List Field
  | _, [] => []
  | n, q :: qs => fieldFromQuad sourceConfig q n :: fieldsFor sourceConfig (n + 1) qs

/-- Build the field map of the model factory: one entry per schema key, in
schema order, holding the fields parsed from the quads matching the
subject and the key's predicate. -/
def buildFields (sourceConfig : SourceConfig) (graph : List Quad)
    (subject : String) : List (String × String) → Nat → List (String × List Field)
  | [], _ => []
  | (key, pred) :: rest, n =>
      let qs := graph.filter (fun q => q.subject = subject && q.predicate = pred)
      (key, fieldsFor sourceConfig n qs) ::
        buildFields sourceConfig graph subject rest (n + qs.length)

/-- The model factory: queries the graph for each schema predicate and
groups the resulting fields by key.  The schema maps field keys to
predicate URIs; ids are assigned from a fresh supply. -/
def modelFactory (sourceConfig : SourceConfig) (schema : List (String × String))
    (graph : List Quad) (subject : String) : Model :=
  { subject := subject
    fields := buildFields sourceConfig graph subject schema 0
    graveyard := [] }

namespace Model

/-- All live fields of a model, in map iteration order (the
`reduce`-concatenation the source performs over the field map's
value arrays). -/
def liveFields (m : Model) : List Field :=
  (m.fields.map Prod.snd).flatten

/-- `Model.add`: appends the field to the key's sequence.  The constructor
call passes no graveyard, so the new model's graveyard is empty.  Spreading
`this.fields.get(key)` of a missing key throws (`none`). -/
def add (m : Model) (key : String) (f : Field) : Option Model :=
  match lookupKey m.fields key with
  | none => none
  | some l => some { subject := m.subject
                     fields := setKey m.fields key (l ++ [f])
                     graveyard := [] }

/-- `Model.map`: applies the function to every live field, keeping the key
grouping and the graveyard. -/
def map (m : Model) (fn : Field → Field) : Model :=
  { subject := m.subject
    fields := m.fields.map (fun kl => (kl.1, kl.2.map fn))
    graveyard := m.graveyard }

/-- `Model.filterToGraveyard`: live fields failing the predicate are
appended to the graveyard, in iteration order. -/
def filterToGraveyard (m : Model) (fn : Field → Bool) : Model :=
  { subject := m.subject
    fields := m.fields.map (fun kl => (kl.1, kl.2.filter fn))
    graveyard := m.graveyard ++ (m.liveFields.filter (fun f => !fn f)) }

/-- `Model.clearGraveyard`: same fields, empty graveyard. -/
def clearGraveyard (m : Model) : Model :=
  { subject := m.subject, fields := m.fields, graveyard := [] }

/-- `Model.remove`: a no-op when no live field has the argument's id,
otherwise filters every field with that id to the graveyard. -/
def remove (m : Model) (f : Field) : Model :=
  if (m.liveFields.find? (fun x => x.id = f.id)).isSome then
    m.filterToGraveyard (fun x => !(x.id = f.id))
  else m

end Model

/-- One resource's pending changes: serialized quads to delete and to
insert. -/
structure DiffEntry where
  toDel : List String
  toIns : List String
deriving DecidableEq, Repr

/-- A diff map: resource URI to pending changes, keys in first-insertion
order (JS object key order). -/
def DiffMap : Type := List (String × DiffEntry)

instance : DecidableEq DiffMap := by
  unfold DiffMap
  infer_instance

/-- Record a deletion under a resource URI, creating the entry on first
use. -/
def pushDel : DiffMap → String → String → DiffMap
  | [], uri, s => [(uri, { toDel := [s], toIns := [] })]
  | (u, e) :: rest, uri, s =>
      if u = uri then (u, { e with toDel := e.toDel ++ [s] }) :: rest
      else (u, e) :: pushDel rest uri s

/-- Record an insertion under a resource URI, creating the entry on first
use. -/
def pushIns : DiffMap → String → String → DiffMap
  | [], uri, s => [(uri, { toDel := [], toIns := [s] })]
  | (u, e) :: rest, uri, s =>
      if u = uri then (u, { e with toIns := e.toIns ++ [s] }) :: rest
      else (u, e) :: pushIns rest uri s

namespace Model

/-- One step of the live-field diff reduction.  The new and original
source URIs are read before the change test, exactly as the source does:
an original quad with no graph makes `originalQuad.graph.value` throw
(`none`).  A changed field deletes its original quad under the original
source and inserts its current quad under the current source; an unchanged
field contributes nothing. -/
def liveStep (isUri : String → Bool) (subject : String) (acc : DiffMap)
    (f : Field) : Option DiffMap :=
  let newQuad := f.toQuad isUri subject
  let newSourceURI := f.getCurrentSource
  match f.originalQuad subject with
  | some oq =>
      match oq.graph with
      | none => none
      | some originalSourceURI =>
          if newQuad = oq then some acc
          else some (pushIns (pushDel acc originalSourceURI oq.toNT) newSourceURI newQuad.toNT)
  | none => some (pushIns acc newSourceURI newQuad.toNT)

/-- The live-field diff reduction. -/
def liveDiff (isUri : String → Bool) (subject : String) :
    DiffMap → List Field → Option DiffMap
  | acc, [] => some acc
  | acc, f :: rest =>
      match liveStep isUri subject acc f with
      | none => none
      | some acc' => liveDiff isUri subject acc' rest

/-- One step of the graveyard pass: a graveyarded field with an original
quad records a deletion under that quad's graph (reading `.graph.uri`
throws for a graph-less quad); a field with no original quad contributes
nothing. -/
def gyStep (subject : String) (acc : DiffMap) (f : Field) : Option DiffMap :=
  match f.originalQuad subject with
  | some q =>
      match q.graph with
      | none => none
      | some uri => some (pushDel acc uri q.toNT)
  | none => some acc

/-- The graveyard pass of `diff`. -/
def gyDiff (subject : String) : DiffMap → List Field → Option DiffMap
  | acc, [] => some acc
  | acc, f :: rest =>
      match gyStep subject acc f with
      | none => none
      | some acc' => gyDiff subject acc' rest

/-- `Model.diff`: reduce the live fields into a per-resource change map,
then add a deletion for every graveyarded field's original quad.  The
source's initial reduce has no seed, so an empty field map throws
(`none`). -/
def diff (isUri : String → Bool) (m : Model) : Option DiffMap :=
  match m.fields with
  | [] => none
  | _ =>
      match liveDiff isUri m.subject [] m.liveFields with
      | none => none
      | some base => gyDiff m.subject base m.graveyard

end Model

/-- The error thrown by `save` when some patches fail.  The source builds
`Error('Not all patches succeeded')` and attaches the updated model to it;
nothing else is carried. -/
structure SaveError where
  model : Model
deriving DecidableEq, Repr

namespace Model

/-- `Model.save`.  The patch transport is `patch : String → Bool`, the
per-resource outcome of `webClient.patch` (the source fans out one request
per diff key and collects the set of URIs that succeeded).  `fid` supplies
the fresh uuid used when a field is rebuilt by `fromCurrentState`.  On an
empty diff the model is returned untouched with no network call; otherwise
every live field whose current source was patched successfully is promoted
to original state, the graveyard is cleared unconditionally, and the
result is the updated model, or a `SaveError` carrying it when some patch
failed. -/
def save (isUri : String → Bool) (patch : String → Bool) (fid : Field → Nat)
    (m : Model) : Option (Except SaveError Model) :=
  match m.diff isUri with
  | none => none
  | some diffMap =>
      if diffMap = [] then some (.ok m)
      else
        let urisToPatch := diffMap.map Prod.fst
        let patchedURIs := urisToPatch.filter patch
        let updatedModel :=
          (m.map (fun f =>
            if f.getCurrentSource ∈ patchedURIs then
              f.fromCurrentState isUri m.subject (fid f)
            else f)).clearGraveyard
        if patchedURIs.length = urisToPatch.length then some (.ok updatedModel)
        else some (.error { model := updatedModel })

end Model

/-!
Concrete fixtures shared by the claim theorems and their witnesses,
mirroring the source configurations used throughout the repository's
test suites.
-/

/-- A source configuration with one default listed graph, one default
unlisted graph and one further known unlisted graph. -/
def cfgW : SourceConfig :=
  { listedDefault := "https://ex.com/public"
    unlistedDefault := "https://ex.com/private"
    sourceIndex := [("https://ex.com/public", true)
                    , ("https://ex.com/private", false)
                    , ("https://ex.com/other-private", false)] }

/-- A URI test that recognizes nothing, making every ad hoc value a plain
literal. -/
def noUriW : String → Bool := fun _ => false

/-- A quad living on the non-default unlisted graph. -/
def quadW : Quad :=
  { subject := "https://ex.com/me"
    predicate := "https://ex.com/vocab#name"
    object := Term.literal "dan" none
    graph := some "https://ex.com/other-private" }

/-- An ad hoc listed field (a pending insertion for the default listed
graph). -/
def fListedW : Field :=
  adHocField cfgW "https://ex.com/vocab#phone" "tel:000" (some true) 1

/-- An ad hoc unlisted field (a pending insertion for the default
unlisted graph). -/
def fUnlistedW : Field :=
  adHocField cfgW "https://ex.com/vocab#phone" "tel:111" (some false) 2

/-- A model holding the two pending ad hoc fields, targeting two distinct
resources. -/
def mTwoPendingW : Model :=
  { subject := "https://ex.com/me"
    fields := [("phone", [fListedW, fUnlistedW])]
    graveyard := [] }

/-- A model with one pending ad hoc field. -/
def mOnePendingW : Model :=
  { subject := "https://ex.com/me"
    fields := [("phone", [fListedW])]
    graveyard := [] }

/-- The resource URIs of a diff map, in insertion order (`Object.keys`). -/
def keysOf (d : DiffMap) : List String := d.map Prod.fst

/-- The deletions recorded under a resource URI (empty when the URI has no
entry). -/
def delOf (d : DiffMap) (uri : String) : List String :=
  ((lookupKey d uri).getD { toDel := [], toIns := [] }).toDel

/-- The insertions recorded under a resource URI (empty when the URI has
no entry). -/
def insOf (d : DiffMap) (uri : String) : List String :=
  ((lookupKey d uri).getD { toDel := [], toIns := [] }).toIns

/-- Total number of deletions recorded in a diff map. -/
def delTotal (d : DiffMap) : Nat := (d.map (fun p => p.2.toDel.length)).sum

/-- Total number of insertions recorded in a diff map. -/
def insTotal (d : DiffMap) : Nat := (d.map (fun p => p.2.toIns.length)).sum

/-!
Lemmas about the embedding, shared by the claim theorems.
-/

theorem Term.withValue_value (t : Term) : t.withValue t.value = t := by
  cases t <;> rfl

theorem delOf_cons_eq (k : String) (e : DiffEntry) (rest : DiffMap) :
    delOf ((k, e) :: rest) k = e.toDel := by
  simp [delOf, lookupKey]

theorem delOf_cons_ne (k : String) (e : DiffEntry) (rest : DiffMap)
    (uri : String) (h : ¬ k = uri) : delOf ((k, e) :: rest) uri = delOf rest uri := by
  simp [delOf, lookupKey, h]

theorem insOf_cons_eq (k : String) (e : DiffEntry) (rest : DiffMap) :
    insOf ((k, e) :: rest) k = e.toIns := by
  simp [insOf, lookupKey]

theorem insOf_cons_ne (k : String) (e : DiffEntry) (rest : DiffMap)
    (uri : String) (h : ¬ k = uri) : insOf ((k, e) :: rest) uri = insOf rest uri := by
  simp [insOf, lookupKey, h]

theorem pushDel_cons_eq (k : String) (e : DiffEntry) (rest : DiffMap) (s : String) :
    pushDel ((k, e) :: rest) k s = (k, { e with toDel := e.toDel ++ [s] }) :: rest := by
  simp [pushDel]

theorem pushDel_cons_ne (k : String) (e : DiffEntry) (rest : DiffMap)
    (u s : String) (h : ¬ k = u) :
    pushDel ((k, e) :: rest) u s = (k, e) :: pushDel rest u s := by
  simp [pushDel, h]

theorem pushIns_cons_eq (k : String) (e : DiffEntry) (rest : DiffMap) (s : String) :
    pushIns ((k, e) :: rest) k s = (k, { e with toIns := e.toIns ++ [s] }) :: rest := by
  simp [pushIns]

theorem pushIns_cons_ne (k : String) (e : DiffEntry) (rest : DiffMap)
    (u s : String) (h : ¬ k = u) :
    pushIns ((k, e) :: rest) u s = (k, e) :: pushIns rest u s := by
  simp [pushIns, h]

theorem delOf_pushDel (acc : DiffMap) (u s uri : String) :
    delOf (pushDel acc u s) uri =
      if uri = u then delOf acc uri ++ [s] else delOf acc uri := by
  induction acc with
  | nil =>
      by_cases h : uri = u
      · subst h; simp [pushDel, delOf, lookupKey]
      · simp [pushDel, delOf, lookupKey, h, Ne.symm h]
  | cons kv rest ih =>
      obtain ⟨k, e⟩ := kv
      by_cases hk : k = u
      · subst hk
        rw [pushDel_cons_eq]
        by_cases h : uri = k
        · subst h
          rw [delOf_cons_eq, delOf_cons_eq, if_pos rfl]
        · rw [delOf_cons_ne _ _ _ _ (fun hh => h hh.symm),
            delOf_cons_ne _ _ _ _ (fun hh => h hh.symm), if_neg h]
      · rw [pushDel_cons_ne _ _ _ _ _ hk]
        by_cases h : k = uri
        · subst h
          rw [delOf_cons_eq, delOf_cons_eq, if_neg hk]
        · rw [delOf_cons_ne _ _ _ _ h, delOf_cons_ne _ _ _ _ h]
          exact ih

theorem insOf_pushDel (acc : DiffMap) (u s uri : String) :
    insOf (pushDel acc u s) uri = insOf acc uri := by
  induction acc with
  | nil =>
      by_cases h : uri = u
      · subst h; simp [pushDel, insOf, lookupKey]
      · simp [pushDel, insOf, lookupKey, Ne.symm h]
  | cons kv rest ih =>
      obtain ⟨k, e⟩ := kv
      by_cases hk : k = u
      · subst hk
        rw [pushDel_cons_eq]
        by_cases h : k = uri
        · subst h
          rw [insOf_cons_eq, insOf_cons_eq]
        · rw [insOf_cons_ne _ _ _ _ h, insOf_cons_ne _ _ _ _ h]
      · rw [pushDel_cons_ne _ _ _ _ _ hk]
        by_cases h : k = uri
        · subst h
          rw [insOf_cons_eq, insOf_cons_eq]
        · rw [insOf_cons_ne _ _ _ _ h, insOf_cons_ne _ _ _ _ h]
          exact ih

theorem insOf_pushIns (acc : DiffMap) (u s uri : String) :
    insOf (pushIns acc u s) uri =
      if uri = u then insOf acc uri ++ [s] else insOf acc uri := by
  induction acc with
  | nil =>
      by_cases h : uri = u
      · subst h; simp [pushIns, insOf, lookupKey]
      · simp [pushIns, insOf, lookupKey, h, Ne.symm h]
  | cons kv rest ih =>
      obtain ⟨k, e⟩ := kv
      by_cases hk : k = u
      · subst hk
        rw [pushIns_cons_eq]
        by_cases h : uri = k
        · subst h
          rw [insOf_cons_eq, insOf_cons_eq, if_pos rfl]
        · rw [insOf_cons_ne _ _ _ _ (fun hh => h hh.symm),
            insOf_cons_ne _ _ _ _ (fun hh => h hh.symm), if_neg h]
      · rw [pushIns_cons_ne _ _ _ _ _ hk]
        by_cases h : k = uri
        · subst h
          rw [insOf_cons_eq, insOf_cons_eq, if_neg hk]
        · rw [insOf_cons_ne _ _ _ _ h, insOf_cons_ne _ _ _ _ h]
          exact ih

theorem delOf_pushIns (acc : DiffMap) (u s uri : String) :
    delOf (pushIns acc u s) uri = delOf acc uri := by
  induction acc with
  | nil =>
      by_cases h : uri = u
      · subst h; simp [pushIns, delOf, lookupKey]
      · simp [pushIns, delOf, lookupKey, Ne.symm h]
  | cons kv rest ih =>
      obtain ⟨k, e⟩ := kv
      by_cases hk : k = u
      · subst hk
        rw [pushIns_cons_eq]
        by_cases h : k = uri
        · subst h
          rw [delOf_cons_eq, delOf_cons_eq]
        · rw [delOf_cons_ne _ _ _ _ h, delOf_cons_ne _ _ _ _ h]
      · rw [pushIns_cons_ne _ _ _ _ _ hk]
        by_cases h : k = uri
        · subst h
          rw [delOf_cons_eq, delOf_cons_eq]
        · rw [delOf_cons_ne _ _ _ _ h, delOf_cons_ne _ _ _ _ h]
          exact ih

theorem delTotal_pushDel (acc : DiffMap) (u s : String) :
    delTotal (pushDel acc u s) = delTotal acc + 1 := by
  induction acc with
  | nil => simp [pushDel, delTotal]
  | cons kv rest ih =>
      obtain ⟨k, e⟩ := kv
      by_cases hk : k = u
      · subst hk
        rw [pushDel_cons_eq]
        simp [delTotal]
        omega
      · rw [pushDel_cons_ne _ _ _ _ _ hk]
        simp only [delTotal, List.map_cons, List.sum_cons]
        simp only [delTotal] at ih
        omega

theorem insTotal_pushDel (acc : DiffMap) (u s : String) :
    insTotal (pushDel acc u s) = insTotal acc := by
  induction acc with
  | nil => simp [pushDel, insTotal]
  | cons kv rest ih =>
      obtain ⟨k, e⟩ := kv
      by_cases hk : k = u
      · subst hk
        rw [pushDel_cons_eq]
        simp [insTotal]
      · rw [pushDel_cons_ne _ _ _ _ _ hk]
        simp only [insTotal, List.map_cons, List.sum_cons]
        simp only [insTotal] at ih
        omega

theorem mem_keysOf_pushDel (acc : DiffMap) (u s : String) :
    u ∈ keysOf (pushDel acc u s) := by
  induction acc with
  | nil => simp [pushDel, keysOf]
  | cons kv rest ih =>
      obtain ⟨k, e⟩ := kv
      by_cases hk : k = u
      · subst hk
        rw [pushDel_cons_eq]
        simp [keysOf]
      · rw [pushDel_cons_ne _ _ _ _ _ hk]
        simp only [keysOf, List.map_cons, List.mem_cons]
        exact Or.inr ih

theorem mem_keysOf_pushIns (acc : DiffMap) (u s : String) :
    u ∈ keysOf (pushIns acc u s) := by
  induction acc with
  | nil => simp [pushIns, keysOf]
  | cons kv rest ih =>
      obtain ⟨k, e⟩ := kv
      by_cases hk : k = u
      · subst hk
        rw [pushIns_cons_eq]
        simp [keysOf]
      · rw [pushIns_cons_ne _ _ _ _ _ hk]
        simp only [keysOf, List.map_cons, List.mem_cons]
        exact Or.inr ih

theorem keysOf_pushDel_mono (acc : DiffMap) (u s x : String)
    (h : x ∈ keysOf acc) : x ∈ keysOf (pushDel acc u s) := by
  induction acc with
  | nil => simp [keysOf] at h
  | cons kv rest ih =>
      obtain ⟨k, e⟩ := kv
      simp only [keysOf, List.map_cons, List.mem_cons] at h
      by_cases hk : k = u
      · subst hk
        rw [pushDel_cons_eq]
        simp only [keysOf, List.map_cons, List.mem_cons]
        exact h
      · rw [pushDel_cons_ne _ _ _ _ _ hk]
        simp only [keysOf, List.map_cons, List.mem_cons]
        rcases h with h | h
        · exact Or.inl h
        · exact Or.inr (ih h)

theorem keysOf_pushIns_mono (acc : DiffMap) (u s x : String)
    (h : x ∈ keysOf acc) : x ∈ keysOf (pushIns acc u s) := by
  induction acc with
  | nil => simp [keysOf] at h
  | cons kv rest ih =>
      obtain ⟨k, e⟩ := kv
      simp only [keysOf, List.map_cons, List.mem_cons] at h
      by_cases hk : k = u
      · subst hk
        rw [pushIns_cons_eq]
        simp only [keysOf, List.map_cons, List.mem_cons]
        exact h
      · rw [pushIns_cons_ne _ _ _ _ _ hk]
        simp only [keysOf, List.map_cons, List.mem_cons]
        rcases h with h | h
        · exact Or.inl h
        · exact Or.inr (ih h)

theorem toQuad_graph (isUri : String → Bool) (subject : String) (f : Field) :
    (f.toQuad isUri subject).graph = some f.getCurrentSource := rfl

theorem liveStep_adhoc (isUri : String → Bool) (subject : String)
    (acc : DiffMap) (f : Field) (h : f.originalQuad subject = none) :
    Model.liveStep isUri subject acc f =
      some (pushIns acc f.getCurrentSource (f.toQuad isUri subject).toNT) := by
  unfold Model.liveStep
  simp only [h]

theorem liveStep_tracked (isUri : String → Bool) (subject : String)
    (acc : DiffMap) (f : Field) (oq : Quad) (u : String)
    (hq : f.originalQuad subject = some oq) (hg : oq.graph = some u) :
    Model.liveStep isUri subject acc f =
      if f.toQuad isUri subject = oq then some acc
      else some (pushIns (pushDel acc u oq.toNT) f.getCurrentSource
        (f.toQuad isUri subject).toNT) := by
  unfold Model.liveStep
  simp only [hq, hg]

theorem liveStep_crash (isUri : String → Bool) (subject : String)
    (acc : DiffMap) (f : Field) (oq : Quad)
    (hq : f.originalQuad subject = some oq) (hg : oq.graph = none) :
    Model.liveStep isUri subject acc f = none := by
  unfold Model.liveStep
  simp only [hq, hg]

theorem gyStep_adhoc (subject : String) (acc : DiffMap) (f : Field)
    (h : f.originalQuad subject = none) :
    Model.gyStep subject acc f = some acc := by
  unfold Model.gyStep
  simp only [h]

theorem gyStep_tracked (subject : String) (acc : DiffMap) (f : Field)
    (q : Quad) (u : String)
    (hq : f.originalQuad subject = some q) (hg : q.graph = some u) :
    Model.gyStep subject acc f = some (pushDel acc u q.toNT) := by
  unfold Model.gyStep
  simp only [hq, hg]

theorem liveDiff_cons (isUri : String → Bool) (subject : String)
    (acc : DiffMap) (f : Field) (rest : List Field) :
    Model.liveDiff isUri subject acc (f :: rest) =
      match Model.liveStep isUri subject acc f with
      | none => none
      | some a => Model.liveDiff isUri subject a rest := rfl

theorem gyDiff_cons (subject : String) (acc : DiffMap) (f : Field)
    (rest : List Field) :
    Model.gyDiff subject acc (f :: rest) =
      match Model.gyStep subject acc f with
      | none => none
      | some a => Model.gyDiff subject a rest := rfl

theorem liveStep_neutral (isUri : String → Bool) (subject : String)
    (acc : DiffMap) (f : Field)
    (h : f.originalQuad subject = some (f.toQuad isUri subject)) :
    Model.liveStep isUri subject acc f = some acc := by
  rw [liveStep_tracked isUri subject acc f _ _ h (toQuad_graph isUri subject f)]
  rw [if_pos rfl]

theorem liveDiff_neutral (isUri : String → Bool) (subject : String)
    (acc : DiffMap) (l : List Field)
    (h : ∀ x ∈ l, ∀ a : DiffMap, Model.liveStep isUri subject a x = some a) :
    Model.liveDiff isUri subject acc l = some acc := by
  induction l generalizing acc with
  | nil => rfl
  | cons x rest ih =>
      rw [liveDiff_cons, h x (by simp) acc]
      exact ih _ (fun y hy a => h y (by simp [hy]) a)

theorem liveDiff_append (isUri : String → Bool) (subject : String)
    (acc : DiffMap) (l1 l2 : List Field) :
    Model.liveDiff isUri subject acc (l1 ++ l2) =
      match Model.liveDiff isUri subject acc l1 with
      | none => none
      | some a => Model.liveDiff isUri subject a l2 := by
  induction l1 generalizing acc with
  | nil => rfl
  | cons x rest ih =>
      rw [List.cons_append, liveDiff_cons, liveDiff_cons]
      cases Model.liveStep isUri subject acc x with
      | none => rfl
      | some a => exact ih a

theorem liveStep_keys_mono (isUri : String → Bool) (subject : String)
    (acc out : DiffMap) (f : Field) (x : String)
    (h : Model.liveStep isUri subject acc f = some out)
    (hx : x ∈ keysOf acc) : x ∈ keysOf out := by
  cases hq : f.originalQuad subject with
  | none =>
      rw [liveStep_adhoc isUri subject acc f hq] at h
      cases h
      exact keysOf_pushIns_mono _ _ _ _ hx
  | some oq =>
      cases hg : oq.graph with
      | none => rw [liveStep_crash isUri subject acc f oq hq hg] at h; cases h
      | some u =>
          rw [liveStep_tracked isUri subject acc f oq u hq hg] at h
          split at h
          · cases h; exact hx
          · cases h
            exact keysOf_pushIns_mono _ _ _ _ (keysOf_pushDel_mono _ _ _ _ hx)

theorem liveDiff_keys_mono (isUri : String → Bool) (subject : String)
    (acc out : DiffMap) (l : List Field) (x : String)
    (h : Model.liveDiff isUri subject acc l = some out)
    (hx : x ∈ keysOf acc) : x ∈ keysOf out := by
  induction l generalizing acc with
  | nil => cases h; exact hx
  | cons f rest ih =>
      rw [liveDiff_cons] at h
      cases hs : Model.liveStep isUri subject acc f with
      | none => rw [hs] at h; cases h
      | some a =>
          rw [hs] at h
          exact ih a h (liveStep_keys_mono _ _ _ _ _ _ hs hx)

theorem gyStep_keys_mono (subject : String) (acc out : DiffMap) (f : Field)
    (x : String) (h : Model.gyStep subject acc f = some out)
    (hx : x ∈ keysOf acc) : x ∈ keysOf out := by
  cases hq : f.originalQuad subject with
  | none => rw [gyStep_adhoc subject acc f hq] at h; cases h; exact hx
  | some q =>
      cases hg : q.graph with
      | none =>
          unfold Model.gyStep at h
          simp only [hq, hg] at h
          cases h
      | some u =>
          rw [gyStep_tracked subject acc f q u hq hg] at h
          cases h
          exact keysOf_pushDel_mono _ _ _ _ hx

theorem gyDiff_keys_mono (subject : String) (acc out : DiffMap)
    (l : List Field) (x : String)
    (h : Model.gyDiff subject acc l = some out)
    (hx : x ∈ keysOf acc) : x ∈ keysOf out := by
  induction l generalizing acc with
  | nil => cases h; exact hx
  | cons f rest ih =>
      rw [gyDiff_cons] at h
      cases hs : Model.gyStep subject acc f with
      | none => rw [hs] at h; cases h
      | some a =>
          rw [hs] at h
          exact ih a h (gyStep_keys_mono _ _ _ _ _ hs hx)

theorem liveStep_changed_key (isUri : String → Bool) (subject : String)
    (acc out : DiffMap) (f : Field)
    (h : Model.liveStep isUri subject acc f = some out)
    (hch : ¬ f.originalQuad subject = some (f.toQuad isUri subject)) :
    f.getCurrentSource ∈ keysOf out := by
  cases hq : f.originalQuad subject with
  | none =>
      rw [liveStep_adhoc isUri subject acc f hq] at h
      cases h
      exact mem_keysOf_pushIns _ _ _
  | some oq =>
      cases hg : oq.graph with
      | none => rw [liveStep_crash isUri subject acc f oq hq hg] at h; cases h
      | some u =>
          rw [liveStep_tracked isUri subject acc f oq u hq hg] at h
          split at h
          · rename_i heq
            exact absurd (by rw [hq, heq]) hch
          · cases h
            exact mem_keysOf_pushIns _ _ _

theorem liveDiff_changed_mem (isUri : String → Bool) (subject : String)
    (acc out : DiffMap) (l : List Field) (f : Field)
    (h : Model.liveDiff isUri subject acc l = some out)
    (hf : f ∈ l)
    (hch : ¬ f.originalQuad subject = some (f.toQuad isUri subject)) :
    f.getCurrentSource ∈ keysOf out := by
  induction l generalizing acc with
  | nil => simp at hf
  | cons x rest ih =>
      rw [liveDiff_cons] at h
      cases hs : Model.liveStep isUri subject acc x with
      | none => rw [hs] at h; cases h
      | some a =>
          rw [hs] at h
          rcases List.mem_cons.mp hf with hfx | hfr
          · subst hfx
            exact liveDiff_keys_mono _ _ _ _ _ _ h
              (liveStep_changed_key _ _ _ _ _ hs hch)
          · exact ih a h hfr

theorem diff_some_fields_ne_nil (isUri : String → Bool) (m : Model)
    (d : DiffMap) (h : m.diff isUri = some d) : m.fields ≠ [] := by
  intro hnil
  unfold Model.diff at h
  rw [hnil] at h
  cases h

theorem diff_eq (isUri : String → Bool) (m : Model) (h : m.fields ≠ []) :
    m.diff isUri =
      match Model.liveDiff isUri m.subject [] m.liveFields with
      | none => none
      | some base => Model.gyDiff m.subject base m.graveyard := by
  unfold Model.diff
  cases hf : m.fields with
  | nil => exact absurd hf h
  | cons kl rest => rfl

theorem diff_decomp (isUri : String → Bool) (m : Model) (d : DiffMap)
    (h : m.diff isUri = some d) :
    ∃ base, Model.liveDiff isUri m.subject [] m.liveFields = some base ∧
      Model.gyDiff m.subject base m.graveyard = some d := by
  rw [diff_eq isUri m (diff_some_fields_ne_nil isUri m d h)] at h
  cases hl : Model.liveDiff isUri m.subject [] m.liveFields with
  | none => rw [hl] at h; cases h
  | some base =>
      rw [hl] at h
      exact ⟨base, rfl, h⟩

theorem diff_changed_mem (isUri : String → Bool) (m : Model) (d : DiffMap)
    (f : Field) (h : m.diff isUri = some d) (hf : f ∈ m.liveFields)
    (hch : ¬ f.originalQuad m.subject = some (f.toQuad isUri m.subject)) :
    f.getCurrentSource ∈ keysOf d := by
  obtain ⟨base, hbase, hgy⟩ := diff_decomp isUri m d h
  exact gyDiff_keys_mono _ _ _ _ _ hgy
    (liveDiff_changed_mem _ _ _ _ _ _ hbase hf hch)

theorem fieldFromQuad_neutral (cfg : SourceConfig) (q : Quad) (g : String)
    (i : Nat) (isUri : String → Bool) (subject : String)
    (hg : q.graph = some g) :
    (fieldFromQuad cfg q i).originalQuad subject =
      some ((fieldFromQuad cfg q i).toQuad isUri subject) := by
  simp [fieldFromQuad, mkField, Field.originalQuad, Field.toQuad,
    Field.getCurrentSource, Field.uriIsListed, hg, Term.withValue_value]

theorem fromCurrentState_neutral (isUri : String → Bool) (subject : String)
    (f : Field) (i : Nat) :
    (f.fromCurrentState isUri subject i).originalQuad subject =
      some ((f.fromCurrentState isUri subject i).toQuad isUri subject) := by
  simp [Field.fromCurrentState, mkField, Field.originalQuad, Field.toQuad,
    Field.getCurrentSource, Field.uriIsListed, Term.withValue_value]

theorem fromCurrentState_originalSource (isUri : String → Bool)
    (subject : String) (f : Field) (i : Nat) :
    (f.fromCurrentState isUri subject i).originalSource
      = some f.getCurrentSource := by
  simp [Field.fromCurrentState, mkField, Field.toQuad]

theorem map_liveFields (m : Model) (fn : Field → Field) :
    (m.map fn).liveFields = m.liveFields.map fn := by
  unfold Model.map Model.liveFields
  induction m.fields with
  | nil => rfl
  | cons kl rest ih =>
      simp only [List.map_cons, List.flatten_cons, List.map_append]
      rw [ih]

theorem mem_fieldsFor (cfg : SourceConfig) (n : Nat) (qs : List Quad)
    (f : Field) (h : f ∈ fieldsFor cfg n qs) :
    ∃ q i, q ∈ qs ∧ f = fieldFromQuad cfg q i := by
  induction qs generalizing n with
  | nil => simp [fieldsFor] at h
  | cons q rest ih =>
      unfold fieldsFor at h
      rcases List.mem_cons.mp h with hq | hr
      · exact ⟨q, n, by simp, hq⟩
      · obtain ⟨q2, i, hq2, hf⟩ := ih (n + 1) hr
        exact ⟨q2, i, by simp [hq2], hf⟩

theorem mem_buildFields (cfg : SourceConfig) (graph : List Quad)
    (subject : String) (schema : List (String × String)) (n : Nat) (f : Field)
    (h : f ∈ ((buildFields cfg graph subject schema n).map Prod.snd).flatten) :
    ∃ q i, q ∈ graph ∧ f = fieldFromQuad cfg q i := by
  induction schema generalizing n with
  | nil => simp [buildFields] at h
  | cons kp rest ih =>
      obtain ⟨key, pred⟩ := kp
      unfold buildFields at h
      simp only [List.map_cons, List.flatten_cons, List.mem_append] at h
      rcases h with h | h
      · obtain ⟨q, i, hq, hf⟩ := mem_fieldsFor cfg n _ f h
        exact ⟨q, i, List.mem_of_mem_filter hq, hf⟩
      · exact ih _ h

theorem mem_modelFactory_liveFields (cfg : SourceConfig)
    (schema : List (String × String)) (graph : List Quad) (subject : String)
    (f : Field) (h : f ∈ (modelFactory cfg schema graph subject).liveFields) :
    ∃ q i, q ∈ graph ∧ f = fieldFromQuad cfg q i :=
  mem_buildFields cfg graph subject schema 0 f h

theorem filter_eq_single (l : List Field) (f : Field)
    (hnd : (l.map Field.id).Nodup) (hf : f ∈ l) :
    l.filter (fun x => x.id = f.id) = [f] := by
  induction l with
  | nil => simp at hf
  | cons y rest ih =>
      rw [List.map_cons, List.nodup_cons] at hnd
      obtain ⟨hy, hrest⟩ := hnd
      rcases List.mem_cons.mp hf with hfy | hfr
      · subst hfy
        rw [List.filter_cons_of_pos (by simp)]
        have : rest.filter (fun x => x.id = f.id) = [] := by
          apply List.filter_eq_nil_iff.mpr
          intro x hx
          simp only [decide_eq_true_eq]
          intro hxid
          exact hy (hxid ▸ List.mem_map_of_mem Field.id hx)
        rw [this]
      · have hyne : ¬ (y.id = f.id) := by
          intro hid
          exact hy (hid ▸ List.mem_map_of_mem Field.id hfr)
        rw [List.filter_cons_of_neg (by simp [hyne])]
        exact ih hrest hfr

theorem remove_of_mem (m : Model) (f : Field)
    (hf : f ∈ m.liveFields) (hnd : (m.liveFields.map Field.id).Nodup) :
    m.remove f =
      { subject := m.subject
        fields := m.fields.map (fun kl => (kl.1, kl.2.filter (fun x => !(x.id = f.id))))
        graveyard := m.graveyard ++ [f] } := by
  unfold Model.remove
  have hfind : (m.liveFields.find? (fun x => x.id = f.id)).isSome = true := by
    rw [List.find?_isSome]
    exact ⟨f, hf, by simp⟩
  rw [if_pos hfind]
  unfold Model.filterToGraveyard
  simp only [Model.mk.injEq, Bool.not_not, true_and]
  rw [filter_eq_single m.liveFields f hnd hf]

theorem gyStep_del_mono (subject : String) (acc a : DiffMap) (x : Field)
    (u s : String) (h : Model.gyStep subject acc x = some a)
    (hmem : s ∈ delOf acc u) : s ∈ delOf a u := by
  cases hq : x.originalQuad subject with
  | none => rw [gyStep_adhoc subject acc x hq] at h; cases h; exact hmem
  | some q =>
      cases hg : q.graph with
      | none =>
          unfold Model.gyStep at h
          simp only [hq, hg] at h
          cases h
      | some u2 =>
          rw [gyStep_tracked subject acc x q u2 hq hg] at h
          cases h
          rw [delOf_pushDel]
          by_cases he : u = u2
          · rw [if_pos he]
            exact List.mem_append_left _ hmem
          · rw [if_neg he]
            exact hmem

theorem gyDiff_del_mono (subject : String) (acc out : DiffMap)
    (l : List Field) (u s : String)
    (h : Model.gyDiff subject acc l = some out)
    (hmem : s ∈ delOf acc u) : s ∈ delOf out u := by
  induction l generalizing acc with
  | nil => cases h; exact hmem
  | cons x rest ih =>
      rw [gyDiff_cons] at h
      cases hs : Model.gyStep subject acc x with
      | none => rw [hs] at h; cases h
      | some a =>
          rw [hs] at h
          exact ih a h (gyStep_del_mono subject acc a x u s hs hmem)

theorem gyDiff_mem_del (subject : String) (acc out : DiffMap)
    (gy : List Field) (f : Field) (q : Quad) (u : String)
    (hf : f ∈ gy) (hq : f.originalQuad subject = some q) (hg : q.graph = some u)
    (h : Model.gyDiff subject acc gy = some out) : q.toNT ∈ delOf out u := by
  induction gy generalizing acc with
  | nil => simp at hf
  | cons x rest ih =>
      rw [gyDiff_cons] at h
      cases hs : Model.gyStep subject acc x with
      | none => rw [hs] at h; cases h
      | some a =>
          rw [hs] at h
          rcases List.mem_cons.mp hf with hfx | hfr
          · subst hfx
            rw [gyStep_tracked subject acc f q u hq hg] at hs
            cases hs
            refine gyDiff_del_mono subject _ out rest u q.toNT h ?_
            rw [delOf_pushDel, if_pos rfl]
            exact List.mem_append_right _ (by simp)
          · exact ih a hfr h

theorem lookupKey_setKey_decomp {α : Type} (al : List (String × α))
    (key : String) (l v : α) (h : lookupKey al key = some l) :
    ∃ pre post, al = pre ++ (key, l) :: post ∧
      setKey al key v = pre ++ (key, v) :: post := by
  induction al with
  | nil => cases h
  | cons kv rest ih =>
      obtain ⟨k, x⟩ := kv
      by_cases hk : k = key
      · subst hk
        unfold lookupKey at h
        rw [if_pos rfl] at h
        cases h
        refine ⟨[], rest, by simp, ?_⟩
        unfold setKey
        rw [if_pos rfl]
        simp
      · unfold lookupKey at h
        rw [if_neg hk] at h
        obtain ⟨pre, post, hal, hset⟩ := ih h
        refine ⟨(k, x) :: pre, post, by simp [hal], ?_⟩
        unfold setKey
        rw [if_neg hk, hset]
        simp

theorem adHocField_originalQuad (cfg : SourceConfig) (pred v : String)
    (listed : Option Bool) (i : Nat) (subject : String) :
    (adHocField cfg pred v listed i).originalQuad subject = none := rfl

theorem adHocField_getCurrentSource (cfg : SourceConfig) (pred v : String)
    (b : Bool) (i : Nat) :
    (adHocField cfg pred v (some b) i).getCurrentSource =
      if b then cfg.listedDefault else cfg.unlistedDefault := by
  cases b <;> rfl

theorem diff_of_neutral (isUri : String → Bool) (m : Model)
    (hf : m.fields ≠ []) (hgy : m.graveyard = [])
    (h : ∀ x ∈ m.liveFields,
      x.originalQuad m.subject = some (x.toQuad isUri m.subject)) :
    m.diff isUri = some [] := by
  rw [diff_eq isUri m hf]
  rw [liveDiff_neutral isUri m.subject [] m.liveFields
    (fun x hx a => liveStep_neutral isUri m.subject a x (h x hx))]
  rw [hgy]
  rfl

/-!
Claim theorems.
-/

/-- C1: if a field's original source is classified (unfamiliar URIs
counting as unlisted) the same as the field's current listed flag, source
resolution stays on the original source; in particular a field built from
a quad on a graph indexed as unlisted, toggled listed and toggled back,
materializes on its original graph again. -/
theorem claim1_source_stickiness (f : Field) (g : String) (isUri : String → Bool)
    (subject : String) (cfg : SourceConfig) (q : Quad) (gr : String) (i j k : Nat)
    (h1 : f.originalSource = some g)
    (h2 : f.uriIsListed g = f.listed)
    (h3 : q.graph = some gr)
    (h4 : lookupKey cfg.sourceIndex gr = some false) :
    f.getCurrentSource = g ∧
    ((((fieldFromQuad cfg q i).toggleListed j).toggleListed k).toQuad isUri subject).graph
      = some gr := by
  constructor
  · simp [Field.getCurrentSource, h1, h2]
  · simp [fieldFromQuad, mkField, Field.toggleListed, Field.set, Field.toQuad,
      Field.getCurrentSource, Field.uriIsListed, h3, h4]

/-- Witness for C1: the spec's concrete scenario, with
`originalSource = 'https://ex.com/other-private'` toggled twice. -/
theorem claim1_witness :
    (fieldFromQuad cfgW quadW 0).originalSource = some "https://ex.com/other-private" ∧
    (fieldFromQuad cfgW quadW 0).uriIsListed "https://ex.com/other-private"
      = (fieldFromQuad cfgW quadW 0).listed ∧
    quadW.graph = some "https://ex.com/other-private" ∧
    lookupKey cfgW.sourceIndex "https://ex.com/other-private" = some false ∧
    ((fieldFromQuad cfgW quadW 0).getCurrentSource = "https://ex.com/other-private" ∧
      ((((fieldFromQuad cfgW quadW 0).toggleListed 1).toggleListed 2).toQuad noUriW
          "https://ex.com/me").graph = some "https://ex.com/other-private") :=
  ⟨by decide, by decide, by decide, by decide,
    claim1_source_stickiness (fieldFromQuad cfgW quadW 0)
      "https://ex.com/other-private" noUriW "https://ex.com/me" cfgW quadW
      "https://ex.com/other-private" 0 1 2
      (by decide) (by decide) (by decide) (by decide)⟩

/-- C5: a graph URI absent from the source index is classified unlisted
(`false`), so an unlisted field whose original source is such an
unfamiliar graph stays on that graph instead of moving to the default
unlisted graph. -/
theorem claim5_unknown_graph_stays_put (f : Field) (g : String)
    (h1 : f.originalSource = some g)
    (h2 : lookupKey f.sourceConfig.sourceIndex g = none)
    (h3 : f.listed = false) :
    f.uriIsListed g = false ∧ f.getCurrentSource = g := by
  have hclass : f.uriIsListed g = false := by
    unfold Field.uriIsListed
    rw [h2]
    rfl
  refine ⟨hclass, ?_⟩
  simp [Field.getCurrentSource, h1, h3, hclass]

/-- Witness for C5: a field parsed from a quad on
`https://unknown-server.com/resource`, a URI missing from the source
index, resolves back to that URI. -/
theorem claim5_witness :
    (fieldFromQuad cfgW
        { subject := "https://ex.com/me"
          predicate := "https://ex.com/vocab#name"
          object := Term.literal "dan" none
          graph := some "https://unknown-server.com/resource" } 0).originalSource
      = some "https://unknown-server.com/resource" ∧
    lookupKey cfgW.sourceIndex "https://unknown-server.com/resource" = none ∧
    (fieldFromQuad cfgW
        { subject := "https://ex.com/me"
          predicate := "https://ex.com/vocab#name"
          object := Term.literal "dan" none
          graph := some "https://unknown-server.com/resource" } 0).listed = false ∧
    ((fieldFromQuad cfgW
        { subject := "https://ex.com/me"
          predicate := "https://ex.com/vocab#name"
          object := Term.literal "dan" none
          graph := some "https://unknown-server.com/resource" } 0).uriIsListed
        "https://unknown-server.com/resource" = false ∧
      (fieldFromQuad cfgW
        { subject := "https://ex.com/me"
          predicate := "https://ex.com/vocab#name"
          object := Term.literal "dan" none
          graph := some "https://unknown-server.com/resource" } 0).getCurrentSource
        = "https://unknown-server.com/resource") :=
  ⟨by decide, by decide, by decide,
    claim5_unknown_graph_stays_put
      (fieldFromQuad cfgW
        { subject := "https://ex.com/me"
          predicate := "https://ex.com/vocab#name"
          object := Term.literal "dan" none
          graph := some "https://unknown-server.com/resource" } 0)
      "https://unknown-server.com/resource" (by decide) (by decide) (by decide)⟩

/-- C4 counterexample: passing an explicit `null` value to `set` is not
treated as a new value — it behaves exactly like an absent option, so the
field keeps its previous value. -/
theorem claim4_counterexample :
    ((adHocField cfgW "https://ex.com/vocab#name" "dan" none 1).set JSOpt.null
        JSOpt.absent 2).value = "dan" ∧
    (adHocField cfgW "https://ex.com/vocab#name" "dan" none 1).set JSOpt.null
        JSOpt.absent 2
      = (adHocField cfgW "https://ex.com/vocab#name" "dan" none 1).set JSOpt.absent
          JSOpt.absent 2 := by
  constructor
  · rfl
  · rfl

/-- C4 (amended): `set` carries `originalObject` and `originalSource` over
unchanged and overrides `value`/`listed` only for options provided with an
actual value; an explicit `null` behaves the same as an absent option (no
change), while provided falsy values such as `false` or the empty string
are honored. -/
theorem claim4_set_null_semantics (f : Field) (v : JSOpt String) (l : JSOpt Bool)
    (i : Nat) :
    (f.set v l i).originalObject = f.originalObject ∧
    (f.set v l i).originalSource = f.originalSource ∧
    (f.set v l i).value = (match v with | .val x => x | _ => f.value) ∧
    (f.set v l i).listed = (match l with | .val b => b | _ => f.listed) ∧
    f.set .null l i = f.set .absent l i ∧
    f.set v .null i = f.set v .absent i := by
  refine ⟨rfl, rfl, ?_, ?_, rfl, rfl⟩
  · simp [Field.set, mkField]
  · simp [Field.set, mkField]

/-- C10: `Model.add` rebuilds the model without passing the graveyard
along, so any pending removals are dropped: the resulting model's
graveyard is empty even when the receiver's was not. -/
theorem claim10_add_clears_graveyard (m : Model) (key : String) (f : Field)
    (m' : Model) (hgy : m.graveyard ≠ []) (h : m.add key f = some m') :
    m'.graveyard = [] := by
  unfold Model.add at h
  cases hl : lookupKey m.fields key with
  | none => rw [hl] at h; cases h
  | some l =>
      rw [hl] at h
      cases h
      rfl

/-- Witness for C10: adding to a model whose graveyard holds a removed
field empties the graveyard. -/
theorem claim10_witness :
    ({ subject := "https://ex.com/me"
       fields := [("phone", [])]
       graveyard := [fUnlistedW] } : Model).graveyard ≠ [] ∧
    ({ subject := "https://ex.com/me"
       fields := [("phone", [])]
       graveyard := [fUnlistedW] } : Model).add "phone" fListedW
      = some { subject := "https://ex.com/me"
               fields := [("phone", [fListedW])]
               graveyard := [] } ∧
    ({ subject := "https://ex.com/me"
       fields := [("phone", [fListedW])]
       graveyard := [] } : Model).graveyard = [] :=
  ⟨by decide, by decide,
    claim10_add_clears_graveyard
      { subject := "https://ex.com/me"
        fields := [("phone", [])]
        graveyard := [fUnlistedW] } "phone" fListedW
      { subject := "https://ex.com/me"
        fields := [("phone", [fListedW])]
        graveyard := [] }
      (by decide) (by decide)⟩

/-- C9: whenever `save` issues at least one patch (the diff is non-empty),
the model it produces — the resolved one on full success or the one
attached to the error on partial failure — has an empty graveyard, because
the updated model is built with `clearGraveyard` before the outcome is
inspected. -/
theorem claim9_graveyard_cleared_on_save (isUri patch : String → Bool)
    (fid : Field → Nat) (m : Model) (d : DiffMap) (r : Except SaveError Model)
    (hd : m.diff isUri = some d) (hne : d ≠ [])
    (hr : m.save isUri patch fid = some r) :
    (match r with
     | .ok m' => m'.graveyard
     | .error e => e.model.graveyard) = [] := by
  unfold Model.save at hr
  rw [hd] at hr
  dsimp only at hr
  rw [if_neg hne] at hr
  split at hr <;> cases hr <;> rfl

/-- Witness for C9: saving a model with one pending field over a failing
transport still yields an error model with an empty graveyard. -/
theorem claim9_witness :
    mOnePendingW.diff noUriW
      = some [(cfgW.listedDefault,
               { toDel := [], toIns := [(fListedW.toQuad noUriW mOnePendingW.subject).toNT] })] ∧
    ([(cfgW.listedDefault,
       { toDel := [], toIns := [(fListedW.toQuad noUriW mOnePendingW.subject).toNT] })] : DiffMap)
      ≠ [] ∧
    mOnePendingW.save noUriW (fun _ => false) (fun _ => 7)
      = some (.error { model := { subject := "https://ex.com/me"
                                  fields := [("phone", [fListedW])]
                                  graveyard := [] } }) ∧
    (match (.error { model := { subject := "https://ex.com/me"
                                fields := [("phone", [fListedW])]
                                graveyard := [] } } : Except SaveError Model) with
     | .ok m' => m'.graveyard
     | .error e => e.model.graveyard) = [] :=
  ⟨by decide, by decide, by rfl,
    claim9_graveyard_cleared_on_save noUriW (fun _ => false) (fun _ => 7)
      mOnePendingW
      [(cfgW.listedDefault,
        { toDel := [], toIns := [(fListedW.toQuad noUriW mOnePendingW.subject).toNT] })]
      (.error { model := { subject := "https://ex.com/me"
                           fields := [("phone", [fListedW])]
                           graveyard := [] } })
      (by decide) (by decide) (by rfl)⟩

/-- C3: a freshly built model — produced by the model factory from a graph
whose statements carry their source graph — has an empty diff; in general
any live field whose current quad equals its original quad contributes no
deletion and no insertion to the diff. -/
theorem claim3_noop_diff (cfg : SourceConfig) (schema : List (String × String))
    (graph : List Quad) (subject : String) (isUri : String → Bool)
    (hs : schema ≠ [])
    (hg : ∀ q ∈ graph, (q.graph).isSome) :
    (modelFactory cfg schema graph subject).diff isUri = some [] ∧
    (∀ (subj : String) (acc : DiffMap) (f : Field),
      f.originalQuad subj = some (f.toQuad isUri subj) →
      Model.liveStep isUri subj acc f = some acc) := by
  constructor
  · have hne : (modelFactory cfg schema graph subject).fields ≠ [] := by
      cases schema with
      | nil => exact absurd rfl hs
      | cons kp rest =>
          obtain ⟨key, pred⟩ := kp
          simp [modelFactory, buildFields]
    have hneutral : ∀ x ∈ (modelFactory cfg schema graph subject).liveFields,
        x.originalQuad (modelFactory cfg schema graph subject).subject
          = some (x.toQuad isUri (modelFactory cfg schema graph subject).subject) := by
      intro x hx
      obtain ⟨q, i, hq, hxe⟩ := mem_modelFactory_liveFields cfg schema graph subject x hx
      obtain ⟨g, hg2⟩ := Option.isSome_iff_exists.mp (hg q hq)
      subst hxe
      exact fieldFromQuad_neutral cfg q g i isUri _ hg2
    exact diff_of_neutral isUri _ hne rfl hneutral
  · intro subj acc f h
    exact liveStep_neutral isUri subj acc f h

/-- Witness for C3: the factory applied to a one-statement graph yields an
empty diff. -/
theorem claim3_witness :
    ((("name", "https://ex.com/vocab#name") :: ([] : List (String × String))) ≠ []) ∧
    (∀ q ∈ [quadW], (q.graph).isSome) ∧
    ((modelFactory cfgW [("name", "https://ex.com/vocab#name")] [quadW]
        "https://ex.com/me").diff noUriW = some []) :=
  ⟨by decide, by decide,
    (claim3_noop_diff cfgW [("name", "https://ex.com/vocab#name")] [quadW]
      "https://ex.com/me" noUriW (by decide) (by decide)).1⟩

/-- C6: adding one ad hoc field to a freshly built model produces a diff
with a single entry, keyed by the default graph for the field's listed
flag, whose insertions are exactly the serialized new quad and whose
deletions are empty. -/
theorem claim6_insert_only_diff (cfg : SourceConfig)
    (schema : List (String × String)) (graph : List Quad) (subject : String)
    (isUri : String → Bool) (key pred v : String) (b : Bool) (i : Nat)
    (m2 : Model)
    (hg : ∀ q ∈ graph, (q.graph).isSome)
    (hadd : (modelFactory cfg schema graph subject).add key
      (adHocField cfg pred v (some b) i) = some m2) :
    m2.diff isUri =
      some [((if b then cfg.listedDefault else cfg.unlistedDefault),
             { toDel := []
               toIns := [((adHocField cfg pred v (some b) i).toQuad isUri subject).toNT] })] := by
  set f := adHocField cfg pred v (some b) i with hf
  set m := modelFactory cfg schema graph subject with hm
  unfold Model.add at hadd
  cases hl : lookupKey m.fields key with
  | none => rw [hl] at hadd; cases hadd
  | some l =>
      rw [hl] at hadd
      cases hadd
      obtain ⟨pre, post, hdecomp, hset⟩ :=
        lookupKey_setKey_decomp m.fields key l (l ++ [f]) hl
      have hneutral : ∀ x ∈ m.liveFields,
          ∀ acc : DiffMap, Model.liveStep isUri m.subject acc x = some acc := by
        intro x hx acc
        obtain ⟨q, j, hq, hxe⟩ := mem_modelFactory_liveFields cfg schema graph subject x hx
        obtain ⟨g, hg2⟩ := Option.isSome_iff_exists.mp (hg q hq)
        subst hxe
        exact liveStep_neutral isUri m.subject acc _ (fieldFromQuad_neutral cfg q g j isUri _ hg2)
      have hmlive : m.liveFields
          = ((pre.map Prod.snd).flatten ++ l) ++ (post.map Prod.snd).flatten := by
        unfold Model.liveFields
        rw [hdecomp]
        simp
      have hlive : (Model.mk m.subject (setKey m.fields key (l ++ [f])) []).liveFields
          = ((pre.map Prod.snd).flatten ++ l) ++ (f :: (post.map Prod.snd).flatten) := by
        unfold Model.liveFields
        rw [hset]
        simp
      have hfieldsne : setKey m.fields key (l ++ [f]) ≠ [] := by
        rw [hset]
        cases pre <;> simp
      have hpartA : Model.liveDiff isUri m.subject []
          ((pre.map Prod.snd).flatten ++ l) = some [] := by
        apply liveDiff_neutral
        intro x hx a
        apply hneutral x
        rw [hmlive]
        exact List.mem_append_left _ hx
      have hpartB : Model.liveDiff isUri m.subject []
          (f :: (post.map Prod.snd).flatten)
          = some [(f.getCurrentSource,
              { toDel := [], toIns := [(f.toQuad isUri m.subject).toNT] })] := by
        rw [liveDiff_cons,
          liveStep_adhoc isUri m.subject [] f (adHocField_originalQuad cfg pred v (some b) i m.subject)]
        show Model.liveDiff isUri m.subject
            (pushIns [] f.getCurrentSource (f.toQuad isUri m.subject).toNT)
            ((post.map Prod.snd).flatten) = _
        rw [liveDiff_neutral isUri m.subject _ _ (by
          intro x hx a
          apply hneutral x
          rw [hmlive]
          exact List.mem_append_right _ hx)]
        rfl
      rw [diff_eq isUri _ hfieldsne, hlive, liveDiff_append, hpartA]
      show (match Model.liveDiff isUri m.subject []
          (f :: (post.map Prod.snd).flatten) with
        | none => none
        | some base => Model.gyDiff m.subject base []) = _
      rw [hpartB]
      show some [(f.getCurrentSource,
          ({ toDel := [], toIns := [(Field.toQuad isUri subject f).toNT] } : DiffEntry))]
        = some [((if b then cfg.listedDefault else cfg.unlistedDefault),
          ({ toDel := [], toIns := [(Field.toQuad isUri subject f).toNT] } : DiffEntry))]
      rw [hf, adHocField_getCurrentSource cfg pred v b i]

/-- Witness for C6: adding a listed ad hoc phone field to a one-statement
model yields exactly one insertion under the default listed graph. -/
theorem claim6_witness :
    (∀ q ∈ [quadW], (q.graph).isSome) ∧
    ((modelFactory cfgW [("name", "https://ex.com/vocab#name")] [quadW]
        "https://ex.com/me").add "name"
        (adHocField cfgW "https://ex.com/vocab#phone" "tel:000" (some true) 9)
      = some { subject := "https://ex.com/me"
               fields := [("name", [fieldFromQuad cfgW quadW 0,
                 adHocField cfgW "https://ex.com/vocab#phone" "tel:000" (some true) 9])]
               graveyard := [] }) ∧
    ({ subject := "https://ex.com/me"
       fields := [("name", [fieldFromQuad cfgW quadW 0,
         adHocField cfgW "https://ex.com/vocab#phone" "tel:000" (some true) 9])]
       graveyard := [] } : Model).diff noUriW =
      some [((if true then cfgW.listedDefault else cfgW.unlistedDefault),
             { toDel := []
               toIns := [((adHocField cfgW "https://ex.com/vocab#phone" "tel:000"
                 (some true) 9).toQuad noUriW "https://ex.com/me").toNT] })] :=
  ⟨by decide, by decide,
    claim6_insert_only_diff cfgW [("name", "https://ex.com/vocab#name")] [quadW]
      "https://ex.com/me" noUriW "name" "https://ex.com/vocab#phone" "tel:000" true 9
      { subject := "https://ex.com/me"
        fields := [("name", [fieldFromQuad cfgW quadW 0,
          adHocField cfgW "https://ex.com/vocab#phone" "tel:000" (some true) 9])]
        graveyard := [] }
      (by decide) (by decide)⟩

/-- C7: removing a live, previously loaded field (matched by id) moves it
to the graveyard and out of the live map, and the resulting diff records
a deletion of the field's original quad under its original source graph;
a graveyarded field with an original quad contributes exactly one
deletion, and the graveyard pass never adds an insertion. -/
theorem claim7_delete_diff (m : Model) (f : Field) (obj : Term) (g : String)
    (isUri : String → Bool) (d : DiffMap)
    (hf : f ∈ m.liveFields)
    (hnd : (m.liveFields.map Field.id).Nodup)
    (ho : f.originalObject = some obj)
    (hs : f.originalSource = some g)
    (hd : (m.remove f).diff isUri = some d) :
    (m.remove f).graveyard = m.graveyard ++ [f] ∧
    (m.remove f).fields
      = m.fields.map (fun kl => (kl.1, kl.2.filter (fun x => !(x.id = f.id)))) ∧
    (Quad.mk m.subject f.predicate obj (some g)).toNT ∈ delOf d g ∧
    (∀ (subj : String) (acc : DiffMap) (x : Field) (q : Quad) (u : String),
      x.originalQuad subj = some q → q.graph = some u →
      Model.gyStep subj acc x = some (pushDel acc u q.toNT)) ∧
    (∀ (acc : DiffMap) (u s uri : String),
      insOf (pushDel acc u s) uri = insOf acc uri) ∧
    (∀ (acc : DiffMap) (u s : String),
      delTotal (pushDel acc u s) = delTotal acc + 1 ∧
      insTotal (pushDel acc u s) = insTotal acc) := by
  have hrem := remove_of_mem m f hf hnd
  have horig : f.originalQuad m.subject = some (Quad.mk m.subject f.predicate obj (some g)) := by
    simp [Field.originalQuad, ho, hs]
  refine ⟨by rw [hrem], by rw [hrem], ?_, ?_, ?_, ?_⟩
  · obtain ⟨base, hbase, hgy⟩ := diff_decomp isUri (m.remove f) d hd
    have hsubj : (m.remove f).subject = m.subject := by rw [hrem]
    have hfgy : f ∈ (m.remove f).graveyard := by
      rw [hrem]
      exact List.mem_append_right _ (by simp)
    refine gyDiff_mem_del (m.remove f).subject base d (m.remove f).graveyard f
      (Quad.mk m.subject f.predicate obj (some g)) g hfgy ?_ rfl hgy
    rw [hsubj]
    exact horig
  · intro subj acc x q u hq hgq
    exact gyStep_tracked subj acc x q u hq hgq
  · intro acc u s uri
    exact insOf_pushDel acc u s uri
  · intro acc u s
    exact ⟨delTotal_pushDel acc u s, insTotal_pushDel acc u s⟩

/-- Witness for C7: removing the loaded name field from a one-statement
model records one deletion under its original graph. -/
theorem claim7_witness :
    (fieldFromQuad cfgW quadW 0 ∈ (modelFactory cfgW
      [("name", "https://ex.com/vocab#name")] [quadW] "https://ex.com/me").liveFields) ∧
    (((modelFactory cfgW [("name", "https://ex.com/vocab#name")] [quadW]
        "https://ex.com/me").liveFields.map Field.id).Nodup) ∧
    ((fieldFromQuad cfgW quadW 0).originalObject = some (Term.literal "dan" none)) ∧
    ((fieldFromQuad cfgW quadW 0).originalSource = some "https://ex.com/other-private") ∧
    (((modelFactory cfgW [("name", "https://ex.com/vocab#name")] [quadW]
        "https://ex.com/me").remove (fieldFromQuad cfgW quadW 0)).diff noUriW
      = some [("https://ex.com/other-private",
               { toDel := [(Quad.mk "https://ex.com/me" "https://ex.com/vocab#name"
                   (Term.literal "dan" none) (some "https://ex.com/other-private")).toNT]
                 toIns := [] })]) ∧
    ((Quad.mk "https://ex.com/me" "https://ex.com/vocab#name"
        (Term.literal "dan" none) (some "https://ex.com/other-private")).toNT
      ∈ delOf [("https://ex.com/other-private",
               { toDel := [(Quad.mk "https://ex.com/me" "https://ex.com/vocab#name"
                   (Term.literal "dan" none) (some "https://ex.com/other-private")).toNT]
                 toIns := [] })] "https://ex.com/other-private") :=
  ⟨by decide, by decide, by decide, by decide, by decide,
    (claim7_delete_diff (modelFactory cfgW [("name", "https://ex.com/vocab#name")]
        [quadW] "https://ex.com/me") (fieldFromQuad cfgW quadW 0)
        (Term.literal "dan" none) "https://ex.com/other-private" noUriW
        [("https://ex.com/other-private",
          { toDel := [(Quad.mk "https://ex.com/me" "https://ex.com/vocab#name"
              (Term.literal "dan" none) (some "https://ex.com/other-private")).toNT]
            toIns := [] })]
        (by decide) (by decide) (by decide) (by decide) (by decide)).2.2.1⟩

/-- C8: when every patch issued by `save` succeeds, `save` resolves with a
model whose diff is empty, whose live fields are exactly the receiver's
with every field whose current source was patched promoted through
`fromCurrentState`, and a field promoted through `fromCurrentState` gets
the graph its current quad was written to as its new original source. -/
theorem claim8_save_reconciliation (isUri patch : String → Bool)
    (fid : Field → Nat) (m : Model) (d : DiffMap)
    (hd : m.diff isUri = some d)
    (hp : ∀ u ∈ keysOf d, patch u = true) :
    ∃ m2, m.save isUri patch fid = some (Except.ok m2) ∧
      m2.diff isUri = some [] ∧
      m2.subject = m.subject ∧
      m2.fields = m.fields.map (fun kl => (kl.1, kl.2.map (fun f =>
        if f.getCurrentSource ∈ (keysOf d).filter patch then
          f.fromCurrentState isUri m.subject (fid f)
        else f))) ∧
      (∀ (x : Field) (i : Nat),
        (x.fromCurrentState isUri m.subject i).originalSource
          = some x.getCurrentSource) := by
  have hfilter : (keysOf d).filter patch = keysOf d :=
    List.filter_eq_self.mpr (fun u hu => hp u hu)
  unfold Model.save
  rw [hd]
  dsimp only
  by_cases hnil : d = []
  · rw [if_pos hnil]
    refine ⟨m, rfl, ?_, rfl, ?_, fun x i => fromCurrentState_originalSource isUri m.subject x i⟩
    · rw [hd, hnil]
    · subst hnil
      simp [keysOf]
  · rw [if_neg hnil]
    have hlen : ((d.map Prod.fst).filter patch).length = (d.map Prod.fst).length := by
      rw [show (d.map Prod.fst).filter patch = d.map Prod.fst from hfilter]
    rw [if_pos hlen]
    refine ⟨_, rfl, ?_, rfl, ?_, fun x i => fromCurrentState_originalSource isUri m.subject x i⟩
    · apply diff_of_neutral
      · show m.fields.map _ ≠ []
        intro hmap
        exact diff_some_fields_ne_nil isUri m d hd (List.map_eq_nil_iff.mp hmap)
      · rfl
      · intro x hx
        have hx2 : x ∈ m.liveFields.map (fun f =>
            if f.getCurrentSource ∈ (d.map Prod.fst).filter patch then
              f.fromCurrentState isUri m.subject (fid f)
            else f) := by
          rw [← map_liveFields m _]
          exact hx
        obtain ⟨y, hy, hxy⟩ := List.mem_map.mp hx2
        subst hxy
        by_cases hmem : y.getCurrentSource ∈ (d.map Prod.fst).filter patch
        · rw [if_pos hmem]
          exact fromCurrentState_neutral isUri m.subject y (fid y)
        · rw [if_neg hmem]
          by_contra hch
          apply hmem
          rw [show (d.map Prod.fst).filter patch = d.map Prod.fst from hfilter]
          exact diff_changed_mem isUri m d y hd hy hch
    · rfl

/-- Witness for C8: saving a model with one pending insertion over an
always-succeeding transport resolves with a reconciled model. -/
theorem claim8_witness :
    mOnePendingW.diff noUriW
      = some [(cfgW.listedDefault,
               { toDel := []
                 toIns := [(fListedW.toQuad noUriW mOnePendingW.subject).toNT] })] ∧
    (∀ u ∈ keysOf [(cfgW.listedDefault,
        { toDel := []
          toIns := [(fListedW.toQuad noUriW mOnePendingW.subject).toNT] })],
      (fun _ : String => true) u = true) ∧
    (∃ m2, mOnePendingW.save noUriW (fun _ => true) (fun _ => 7)
        = some (Except.ok m2) ∧
      m2.diff noUriW = some [] ∧
      m2.subject = mOnePendingW.subject ∧
      m2.fields = mOnePendingW.fields.map (fun kl => (kl.1, kl.2.map (fun f =>
        if f.getCurrentSource ∈ (keysOf [(cfgW.listedDefault,
            { toDel := []
              toIns := [(fListedW.toQuad noUriW mOnePendingW.subject).toNT] })]).filter
            (fun _ => true) then
          f.fromCurrentState noUriW mOnePendingW.subject 7
        else f))) ∧
      (∀ (x : Field) (i : Nat),
        (x.fromCurrentState noUriW mOnePendingW.subject i).originalSource
          = some x.getCurrentSource)) :=
  ⟨by decide, by decide,
    claim8_save_reconciliation noUriW (fun _ => true) (fun _ => 7) mOnePendingW
      [(cfgW.listedDefault,
        { toDel := []
          toIns := [(fListedW.toQuad noUriW mOnePendingW.subject).toNT] })]
      (by decide) (by decide)⟩

/-- C2 (behavior at the failing input): on a partial failure `save`
rejects with the error the source actually builds — a bare
`Error('Not all patches succeeded')` carrying only the updated model, in
which exactly the field whose resolved source was patched successfully
has been promoted; the error carries neither the diff map nor the set of
failed resource URIs. -/
theorem claim2_partial_save_error_payload :
    mTwoPendingW.save noUriW (fun u => u == cfgW.listedDefault) (fun _ => 7)
      = some (Except.error
          { model := { subject := "https://ex.com/me"
                       fields := [("phone",
                         [fListedW.fromCurrentState noUriW "https://ex.com/me" 7,
                          fUnlistedW])]
                       graveyard := [] } }) ∧
    (fListedW.fromCurrentState noUriW "https://ex.com/me" 7).originalSource
      = some cfgW.listedDefault ∧
    fUnlistedW.originalObject = none ∧
    mTwoPendingW.diff noUriW
      = some [(cfgW.listedDefault,
               { toDel := []
                 toIns := [(fListedW.toQuad noUriW "https://ex.com/me").toNT] }),
              (cfgW.unlistedDefault,
               { toDel := []
                 toIns := [(fUnlistedW.toQuad noUriW "https://ex.com/me").toNT] })] :=
  ⟨rfl, rfl, rfl, rfl⟩

end Modelld
